import Mathlib

/-!
Verification of the hexagonal binning operation of
`holoviews/plotting/bokeh/hex_tiles.py` and of the frame-update clamping in
`dataviews/plotting/sheetplots.py`.

Floating-point values are modelled as real numbers; `np.round` is modelled by
round-half-to-even, which is numpy's rounding mode; a numpy float that may be
NaN or infinite is modelled by `FloatV`.  Parts of the pipeline that live in
the holoviews core (outside the analysed source files) — `element.range`,
`element.clone(...).aggregate(...)` and the `min_count` slice — are modelled
from the specification and carry a `Modelled from the spec:` doc string.
-/

namespace HexTiles

/-- Model of a numpy floating-point entry: either a finite real number or a
non-finite entry (NaN or an infinity), which `np.isfinite` rejects. -/
inductive FloatV where
  | num : ℝ → FloatV
  | nan : FloatV

/-- Model of `np.isfinite` on one entry. -/
def FloatV.isFinite : FloatV → Bool
  | .num _ => true
  | .nan => false

/-- Numeric value of a finite entry (junk value 0 on non-finite entries, which
the pipeline never reads because they are filtered out first). -/
def FloatV.val : FloatV → ℝ
  | .num r => r
  | .nan => 0

/-- Finite entries of a column, in order. -/
def FloatV.finList (l : List FloatV) : List ℝ :=
  l.filterMap (fun v => match v with | .num r => some r | .nan => none)

/-- Minimum of a list of reals (0 on the empty list). -/
noncomputable def listMinD : List ℝ → ℝ
  | [] => 0
  | x :: xs => xs.foldl min x

/-- Maximum of a list of reals (0 on the empty list). -/
noncomputable def listMaxD : List ℝ → ℝ
  | [] => 0
  | x :: xs => xs.foldl max x

/-- Modelled from the spec: `element.range(i)` (holoviews core, not among the
analysed sources) returns the data extent, the minimum of the dimension's
values; non-finite entries are ignored (nan-aware min). -/
noncomputable def rangeMin (l : List FloatV) : ℝ := listMinD (FloatV.finList l)

/-- Modelled from the spec: `element.range(i)` (holoviews core, not among the
analysed sources) returns the data extent, the maximum of the dimension's
values; non-finite entries are ignored (nan-aware max). -/
noncomputable def rangeMax (l : List FloatV) : ℝ := listMaxD (FloatV.finList l)

/-- Model of `np.round`: round half to even (numpy's rounding mode). -/
noncomputable def roundHalfEven (x : ℝ) : ℤ :=
  if x - ⌊x⌋ < 1/2 then ⌊x⌋
  else if 1/2 < x - ⌊x⌋ then ⌊x⌋ + 1
  else if ⌊x⌋ % 2 = 0 then ⌊x⌋ else ⌊x⌋ + 1

/-- Model of `round_hex` (hex_tiles.py lines 11-31), on a single coordinate
pair.  `astype(int)` is the identity here because both components are already
integers (sums of values of `np.round`). -/
noncomputable def round_hex (q r : ℝ) : ℤ × ℤ :=
  let x := q
  let z := r
  let y := -x - z
  let rx := roundHalfEven x
  let ry := roundHalfEven y
  let rz := roundHalfEven z
  let dx := |(rx : ℝ) - x|
  let dy := |(ry : ℝ) - y|
  let dz := |(rz : ℝ) - z|
  let cond1 := dx > dy ∧ dx > dz
  ((if cond1 then -(ry + rz) else rx),
   (if ¬cond1 ∧ ¬(dy > dz) then -(rx + ry) else rz))

theorem roundHalfEven_near (n : ℤ) (x : ℝ) (h : |x - n| < 1/2) :
    roundHalfEven x = n := by
  rcases abs_lt.mp h with ⟨h1, h2⟩
  by_cases hge : (n : ℝ) ≤ x
  · have hf : ⌊x⌋ = n := by
      rw [Int.floor_eq_iff]
      exact ⟨hge, by linarith⟩
    rw [roundHalfEven, hf, if_pos (by linarith)]
  · push_neg at hge
    have hf : ⌊x⌋ = n - 1 := by
      rw [Int.floor_eq_iff]
      constructor
      · push_cast; linarith
      · push_cast; linarith
    rw [roundHalfEven, hf, if_neg (by push_cast; linarith),
      if_pos (by push_cast; linarith)]
    omega

theorem roundHalfEven_intCast (n : ℤ) : roundHalfEven (n : ℝ) = n :=
  roundHalfEven_near n _ (by simp)

/-- Core stability lemma: if the fractional pair deviates from an integer cell
by less than 1/2 in each of the three cube coordinates, `round_hex` returns
that cell (all three roundings recover the cell's exact cube coordinates, and
then every branch of the tie-break yields the same pair). -/
theorem round_hex_near (q0 r0 : ℤ) (a b : ℝ)
    (ha : |a| < 1/2) (hb : |b| < 1/2) (hab : |a + b| < 1/2) :
    round_hex ((q0 : ℝ) + a) ((r0 : ℝ) + b) = (q0, r0) := by
  have hx : roundHalfEven ((q0 : ℝ) + a) = q0 :=
    roundHalfEven_near _ _ (by simpa using ha)
  have hz : roundHalfEven ((r0 : ℝ) + b) = r0 :=
    roundHalfEven_near _ _ (by simpa using hb)
  have hy : roundHalfEven (-((q0 : ℝ) + a) - ((r0 : ℝ) + b)) = -q0 - r0 := by
    apply roundHalfEven_near
    have : -((q0 : ℝ) + a) - ((r0 : ℝ) + b) - ((-q0 - r0 : ℤ) : ℝ) = -(a + b) := by
      push_cast; ring
    rw [this, abs_neg]
    exact hab
  rw [round_hex]
  simp only [hx, hy, hz]
  have e1 : -(-q0 - r0 + r0) = q0 := by ring
  have e2 : -(q0 + (-q0 - r0)) = r0 := by ring
  rw [e1, e2]
  simp

theorem round_hex_int (q0 r0 : ℤ) : round_hex (q0 : ℝ) (r0 : ℝ) = (q0, r0) := by
  have := round_hex_near q0 r0 0 0 (by norm_num) (by norm_num) (by norm_num)
  simpa using this

/-- Hexagon orientation: which vertex points upward. -/
inductive Orientation where
  | flat : Orientation
  | pointy : Orientation

/-- Model of `HEX_FLAT` (hex_tiles.py line 33), as a 4-tuple of the list
entries. -/
noncomputable def HEX_FLAT : ℝ × ℝ × ℝ × ℝ :=
  (2/3, 0, -(1/3), Real.sqrt 3 / 3)

/-- Model of `HEX_POINTY` (hex_tiles.py line 34). -/
noncomputable def HEX_POINTY : ℝ × ℝ × ℝ × ℝ :=
  (Real.sqrt 3 / 3, -(1/3), 0, 2/3)

/-- Fractional axial hex coordinates of one point, per `coords_to_hex`
(hex_tiles.py lines 37-46): the orientation matrix applied to
(x/xsize, -y/ysize). -/
noncomputable def hexFrac (o : Orientation) (x y xsize ysize : ℝ) : ℝ × ℝ :=
  let m := match o with
    | Orientation.flat => HEX_FLAT
    | Orientation.pointy => HEX_POINTY
  let x1 := x / xsize
  let y1 := -y / ysize
  (m.1 * x1 + m.2.1 * y1, m.2.2.1 * x1 + m.2.2.2 * y1)

/-- Model of `coords_to_hex` (hex_tiles.py lines 37-46) on a single point. -/
noncomputable def coords_to_hex (x y : ℝ) (o : Orientation) (xsize ysize : ℝ) :
    ℤ × ℤ :=
  round_hex (hexFrac o x y xsize ysize).1 (hexFrac o x y xsize ysize).2

/-- Cartesian center of the hex cell (q, r): the inverse of the orientation
transform of `hexFrac` at pitches xsize, ysize (the spec's "inverting the
flat/pointy transform"). -/
noncomputable def hexCenter (o : Orientation) (xsize ysize : ℝ) (q r : ℤ) :
    ℝ × ℝ :=
  match o with
  | Orientation.flat =>
      (xsize * (3/2 * (q : ℝ)),
       -(ysize * (Real.sqrt 3 * ((r : ℝ) + (q : ℝ)/2))))
  | Orientation.pointy =>
      (xsize * (Real.sqrt 3 * ((q : ℝ) + (r : ℝ)/2)),
       -(ysize * (3/2 * (r : ℝ))))

theorem one_lt_sqrt_three : (1 : ℝ) < Real.sqrt 3 := by
  have : (1 : ℝ) = Real.sqrt 1 := (Real.sqrt_one).symm
  rw [this]
  exact Real.sqrt_lt_sqrt (by norm_num) (by norm_num)

theorem sqrt_three_lt_two : Real.sqrt 3 < 2 := by
  have : (2 : ℝ) = Real.sqrt 4 := by
    rw [show (4 : ℝ) = 2 ^ 2 by norm_num, Real.sqrt_sq (by norm_num)]
  rw [this]
  exact Real.sqrt_lt_sqrt (by norm_num) (by norm_num)

theorem abs_sub_le_abs_add_abs (a b : ℝ) : |a - b| ≤ |a| + |b| := by
  calc |a - b| = |a + -b| := by rw [sub_eq_add_neg]
  _ ≤ |a| + |-b| := abs_add _ _
  _ = |a| + |b| := by rw [abs_neg]

/-- Stability of the hex assignment: a point offset from a cell center by less
than half the pitch in x and in y is assigned to that cell. -/
theorem coords_to_hex_center_offset (o : Orientation) (xs ys : ℝ)
    (hxs : 0 < xs) (hys : 0 < ys) (q r : ℤ) (dx dy : ℝ)
    (h1 : |dx| < xs/2) (h2 : |dy| < ys/2) :
    coords_to_hex ((hexCenter o xs ys q r).1 + dx)
      ((hexCenter o xs ys q r).2 + dy) o xs ys = (q, r) := by
  have hxs0 : xs ≠ 0 := hxs.ne'
  have hys0 : ys ≠ 0 := hys.ne'
  have h3 : Real.sqrt 3 * Real.sqrt 3 = 3 := Real.mul_self_sqrt (by norm_num)
  have hs0 : (0:ℝ) ≤ Real.sqrt 3 := Real.sqrt_nonneg 3
  have hs2 : Real.sqrt 3 < 2 := sqrt_three_lt_two
  have hu : |dx / xs| < 1/2 := by
    rw [abs_div, abs_of_pos hxs, div_lt_iff₀ hxs]
    linarith
  have hv : |dy / ys| < 1/2 := by
    rw [abs_div, abs_of_pos hys, div_lt_iff₀ hys]
    linarith
  have habsu : (0:ℝ) ≤ |dx / xs| := abs_nonneg _
  have habsv : (0:ℝ) ≤ |dy / ys| := abs_nonneg _
  cases o with
  | flat =>
    have hfr : hexFrac Orientation.flat (xs * (3/2 * (q : ℝ)) + dx)
        (-(ys * (Real.sqrt 3 * ((r : ℝ) + (q : ℝ)/2))) + dy) xs ys
        = ((q : ℝ) + 2/3 * (dx/xs),
           (r : ℝ) + (-(1/3) * (dx/xs) - Real.sqrt 3/3 * (dy/ys))) := by
      have ex : (xs * (3/2 * (q : ℝ)) + dx) / xs = 3/2 * (q : ℝ) + dx/xs := by
        rw [add_div, mul_div_cancel_left₀ _ hxs0]
      have ey : -(-(ys * (Real.sqrt 3 * ((r : ℝ) + (q : ℝ)/2))) + dy) / ys
          = Real.sqrt 3 * ((r : ℝ) + (q : ℝ)/2) - dy/ys := by
        have e : -(-(ys * (Real.sqrt 3 * ((r : ℝ) + (q : ℝ)/2))) + dy)
            = ys * (Real.sqrt 3 * ((r : ℝ) + (q : ℝ)/2)) - dy := by ring
        rw [e, sub_div, mul_div_cancel_left₀ _ hys0]
      simp only [hexFrac, HEX_FLAT]
      rw [ex, ey, Prod.mk.injEq]
      constructor
      · ring
      · linear_combination (((r:ℝ) + (q:ℝ)/2)/3) * h3
    simp only [coords_to_hex, hexCenter]
    rw [hfr]
    apply round_hex_near
    · rw [abs_mul, abs_of_pos (show (0:ℝ) < 2/3 by norm_num)]
      nlinarith
    · have t1 : |(-(1/3)) * (dx/xs) - Real.sqrt 3/3 * (dy/ys)|
          ≤ |(-(1/3)) * (dx/xs)| + |Real.sqrt 3/3 * (dy/ys)| :=
        abs_sub_le_abs_add_abs _ _
      rw [abs_mul, abs_mul, abs_neg,
        abs_of_pos (show (0:ℝ) < 1/3 by norm_num),
        abs_of_nonneg (show (0:ℝ) ≤ Real.sqrt 3/3 by positivity)] at t1
      nlinarith
    · have e : 2/3 * (dx/xs) + (-(1/3) * (dx/xs) - Real.sqrt 3/3 * (dy/ys))
          = 1/3 * (dx/xs) - Real.sqrt 3/3 * (dy/ys) := by ring
      rw [e]
      have t1 : |1/3 * (dx/xs) - Real.sqrt 3/3 * (dy/ys)|
          ≤ |1/3 * (dx/xs)| + |Real.sqrt 3/3 * (dy/ys)| :=
        abs_sub_le_abs_add_abs _ _
      rw [abs_mul, abs_mul,
        abs_of_pos (show (0:ℝ) < 1/3 by norm_num),
        abs_of_nonneg (show (0:ℝ) ≤ Real.sqrt 3/3 by positivity)] at t1
      nlinarith
  | pointy =>
    have hfr : hexFrac Orientation.pointy
        (xs * (Real.sqrt 3 * ((q : ℝ) + (r : ℝ)/2)) + dx)
        (-(ys * (3/2 * (r : ℝ))) + dy) xs ys
        = ((q : ℝ) + (Real.sqrt 3/3 * (dx/xs) + 1/3 * (dy/ys)),
           (r : ℝ) + (-(2/3) * (dy/ys))) := by
      have ex : (xs * (Real.sqrt 3 * ((q : ℝ) + (r : ℝ)/2)) + dx) / xs
          = Real.sqrt 3 * ((q : ℝ) + (r : ℝ)/2) + dx/xs := by
        rw [add_div, mul_div_cancel_left₀ _ hxs0]
      have ey : -(-(ys * (3/2 * (r : ℝ))) + dy) / ys
          = 3/2 * (r : ℝ) - dy/ys := by
        have e : -(-(ys * (3/2 * (r : ℝ))) + dy)
            = ys * (3/2 * (r : ℝ)) - dy := by ring
        rw [e, sub_div, mul_div_cancel_left₀ _ hys0]
      simp only [hexFrac, HEX_POINTY]
      rw [ex, ey, Prod.mk.injEq]
      constructor
      · linear_combination (((q:ℝ) + (r:ℝ)/2)/3) * h3
      · ring
    simp only [coords_to_hex, hexCenter]
    rw [hfr]
    apply round_hex_near
    · have t1 : |Real.sqrt 3/3 * (dx/xs) + 1/3 * (dy/ys)|
          ≤ |Real.sqrt 3/3 * (dx/xs)| + |1/3 * (dy/ys)| := abs_add _ _
      rw [abs_mul, abs_mul,
        abs_of_pos (show (0:ℝ) < 1/3 by norm_num),
        abs_of_nonneg (show (0:ℝ) ≤ Real.sqrt 3/3 by positivity)] at t1
      nlinarith
    · rw [abs_mul, abs_neg, abs_of_pos (show (0:ℝ) < 2/3 by norm_num)]
      nlinarith
    · have e : (Real.sqrt 3/3 * (dx/xs) + 1/3 * (dy/ys)) + (-(2/3) * (dy/ys))
          = Real.sqrt 3/3 * (dx/xs) - 1/3 * (dy/ys) := by ring
      rw [e]
      have t1 : |Real.sqrt 3/3 * (dx/xs) - 1/3 * (dy/ys)|
          ≤ |Real.sqrt 3/3 * (dx/xs)| + |1/3 * (dy/ys)| :=
        abs_sub_le_abs_add_abs _ _
      rw [abs_mul, abs_mul,
        abs_of_pos (show (0:ℝ) < 1/3 by norm_num),
        abs_of_nonneg (show (0:ℝ) ≤ Real.sqrt 3/3 by positivity)] at t1
      nlinarith

/-- Modelled from the claim's words, for comparison with the source's
`round_hex`: set x=q, z=r, y=-x-z, round all three to nearest integers,
measure the absolute rounding errors, and recompute exactly one coordinate
via the ordered nested conditions. -/
noncomputable def round_hex_claim (q r : ℝ) : ℤ × ℤ :=
  let x := q
  let z := r
  let y := -x - z
  let rx := roundHalfEven x
  let ry := roundHalfEven y
  let rz := roundHalfEven z
  let dx := |(rx : ℝ) - x|
  let dy := |(ry : ℝ) - y|
  let dz := |(rz : ℝ) - z|
  if dx > dy ∧ dx > dz then (-(ry + rz), rz)
  else if dy > dz then (rx, rz)
  else (rx, -(rx + ry))

/-- C1: for every pair of fractional axial coordinates, `round_hex` computes
x=q, z=r, y=-x-z, rounds all three to nearest integers (numpy rounds half to
even), measures the absolute rounding errors, and recomputes exactly one
coordinate from the other two by the ordered nested conditions of the claim:
if dx > dy and dx > dz then q := -(ry+rz); otherwise if dy > dz then q = rx,
r = rz; otherwise r := -(rx+ry). -/
theorem C1_round_hex_matches_claim (q r : ℝ) :
    round_hex q r = round_hex_claim q r := by
  simp only [round_hex, round_hex_claim]
  split_ifs <;> first | rfl | tauto

/-- C8: a sample offset from a hex-cell center by less than half the bin pitch
along either single axis is routed (by the hex-coordinate assignment `bin`
applies to every sample) to the same (q, r) cell as a sample placed exactly at
the center. -/
theorem C8_round_stability (o : Orientation) (xs ys : ℝ)
    (hxs : 0 < xs) (hys : 0 < ys) (q r : ℤ) (dx dy : ℝ)
    (_haxis : dx = 0 ∨ dy = 0) (h1 : |dx| < xs/2) (h2 : |dy| < ys/2) :
    coords_to_hex ((hexCenter o xs ys q r).1 + dx)
        ((hexCenter o xs ys q r).2 + dy) o xs ys
      = coords_to_hex (hexCenter o xs ys q r).1 (hexCenter o xs ys q r).2
          o xs ys := by
  have hc := coords_to_hex_center_offset o xs ys hxs hys q r dx dy h1 h2
  have h0 := coords_to_hex_center_offset o xs ys hxs hys q r 0 0
    (by simpa using by positivity) (by simpa using by positivity)
  rw [hc]
  rw [add_zero, add_zero] at h0
  rw [h0]

/-- C8 witness: the offset 1/4 along x from the center of cell (0,0) with unit
pitches lands in the same cell as the center itself. -/
theorem C8_round_stability_witness :
    coords_to_hex ((hexCenter Orientation.flat 1 1 0 0).1 + 1/4)
        ((hexCenter Orientation.flat 1 1 0 0).2 + 0) Orientation.flat 1 1
      = coords_to_hex (hexCenter Orientation.flat 1 1 0 0).1
          (hexCenter Orientation.flat 1 1 0 0).2 Orientation.flat 1 1 :=
  C8_round_stability Orientation.flat 1 1 (by norm_num) (by norm_num) 0 0
    (1/4) 0 (Or.inr rfl) (by rw [abs_of_pos] <;> norm_num) (by norm_num)

/-- Grid size parameter of `hex_binning`: one bin count applied to both axes,
or a pair of per-axis bin counts. -/
inductive Gridsize where
  | single : ℕ → Gridsize
  | pair : ℕ → ℕ → Gridsize

/-- Bin count along x: the first tuple entry, or the single count. -/
def Gridsize.sx : Gridsize → ℕ
  | .single g => g
  | .pair a _ => a

/-- Bin count along y: the second tuple entry, or the single count. -/
def Gridsize.sy : Gridsize → ℕ
  | .single g => g
  | .pair _ b => b

/-- Aggregator parameter of `hex_binning`: the default `np.size` (count), or
any other reduction function. -/
inductive Aggregator where
  | size : Aggregator
  | fn : (List ℝ → ℝ) → Aggregator

/-- Sample set: paired coordinate columns plus value-dimension columns. -/
structure Element where
  xs : List FloatV
  ys : List FloatV
  vdims : List (List ℝ)

/-- Configuration of one `hex_binning` invocation. -/
structure Config where
  gridsize : Gridsize
  aggregator : Aggregator
  min_count : Option ℝ
  orientation : Orientation

/-- First occurrence of each key, in order of first appearance. -/
def dedupKeys : List (ℤ × ℤ) → List (ℤ × ℤ)
  | [] => []
  | k :: ks => k :: (dedupKeys ks).filter (fun a => a ≠ k)

/-- Values of one column whose positionally paired cell is k (pairing by
position, as numpy columns are paired; surplus column entries are unpaired). -/
def selectVals (cells : List (ℤ × ℤ)) (k : ℤ × ℤ) (col : List ℝ) : List ℝ :=
  ((List.zip cells col).filter (fun p => p.1 = k)).map Prod.snd

/-- Modelled from the spec: `element.clone(data).aggregate(function)`
(holoviews core, not among the analysed sources) groups the rows by their
(q, r) cell and reduces each value column over each group with the
aggregation function. -/
def aggregateCols (f : List ℝ → ℝ) (cells : List (ℤ × ℤ))
    (cols : List (List ℝ)) : List ((ℤ × ℤ) × List ℝ) :=
  (dedupKeys cells).map
    (fun k => (k, cols.map (fun col => f (selectVals cells k col))))

/-- Modelled from the spec: the slice `agg[:, :, min_count:]` (holoviews core,
not among the analysed sources) keeps exactly the rows whose first value is at
least min_count (an inclusive lower bound); `_process` applies it only when
min_count is set and greater than 1. -/
noncomputable def minCountFilter (mc : Option ℝ)
    (rows : List ((ℤ × ℤ) × List ℝ)) : List ((ℤ × ℤ) × List ℝ) :=
  match mc with
  | some m => if 1 < m then rows.filter (fun row => m ≤ row.2.headD 0)
              else rows
  | none => rows

/-- Bin pitch along x (hex_tiles.py line 75): xsize = ((x1-x0)/sx)*(2/3). -/
noncomputable def binXsize (cfg : Config) (e : Element) : ℝ :=
  ((rangeMax e.xs - rangeMin e.xs) / (cfg.gridsize.sx : ℝ)) * (2/3)

/-- Bin pitch along y (hex_tiles.py line 76): ysize = ((y1-y0)/sy)*(2/3). -/
noncomputable def binYsize (cfg : Config) (e : Element) : ℝ :=
  ((rangeMax e.ys - rangeMin e.ys) / (cfg.gridsize.sy : ℝ)) * (2/3)

/-- Finite samples (hex_tiles.py lines 82-83): the coordinate columns filtered
in lockstep by the joint finiteness mask. -/
def binPoints (e : Element) : List (ℝ × ℝ) :=
  ((List.zip e.xs e.ys).filter (fun p => p.1.isFinite && p.2.isFinite)).map
    (fun p => (p.1.val, p.2.val))

/-- Hex cell of every finite sample (hex_tiles.py line 84). -/
noncomputable def binCells (cfg : Config) (e : Element) : List (ℤ × ℤ) :=
  (binPoints e).map
    (fun p => coords_to_hex p.1 p.2 cfg.orientation (binXsize cfg e)
      (binYsize cfg e))

/-- Error message of hex_tiles.py lines 93-94 (the spec's
InvalidConfiguration error). -/
def hexErrMsg : String :=
  "HexTiles aggregated by value must define a value dimensions."

/-- Model of `hex_binning._process` (hex_tiles.py lines 65-106), the spec's
`bin` operation.  Empty coordinate columns short-circuit to the empty table
(line 80-81); the count aggregator sums a column of ones over len(q) entries
(lines 88-91); any other aggregator requires value dimensions (lines 92-94)
and reduces the unfiltered value columns (lines 95-97); aggregation and the
min_count slice (holoviews core) are modelled from the spec by `aggregateCols`
and `minCountFilter`. -/
noncomputable def bin (cfg : Config) (e : Element) :
    Except String (List ((ℤ × ℤ) × List ℝ)) :=
  if e.xs.length = 0 then Except.ok []
  else
    match cfg.aggregator with
    | Aggregator.size =>
        Except.ok (minCountFilter cfg.min_count
          (aggregateCols List.sum (binCells cfg e)
            [List.replicate (binCells cfg e).length 1]))
    | Aggregator.fn f =>
        if e.vdims = [] then Except.error hexErrMsg
        else Except.ok (minCountFilter cfg.min_count
          (aggregateCols f (binCells cfg e) e.vdims))

/-- C3: for the empty sample set, `bin` returns an aggregate table with zero
rows and raises no error, regardless of the grid configuration. -/
theorem C3_empty_input_ok (cfg : Config) (vd : List (List ℝ)) :
    bin cfg ⟨[], [], vd⟩ = Except.ok [] := by
  simp [bin]

/-- C9: the empty-input check precedes aggregator validation — with empty
coordinate arrays, `bin` returns the empty aggregate table without raising,
even when a non-count aggregator is requested and no value dimensions are
defined. -/
theorem C9_empty_check_precedes_validation (gs : Gridsize) (mc : Option ℝ)
    (o : Orientation) (f : List ℝ → ℝ) :
    bin ⟨gs, Aggregator.fn f, mc, o⟩ ⟨[], [], []⟩ = Except.ok [] := by
  simp [bin]

/-- C4 as stated is false: at the empty sample set with a non-count aggregator
and no value dimensions, the claimed error condition holds yet no error is
raised — `bin` returns the empty table. -/
theorem C4_counterexample :
    bin ⟨Gridsize.single 1, Aggregator.fn List.sum, none, Orientation.flat⟩
        ⟨[], [], []⟩ = Except.ok []
      ∧ Aggregator.fn List.sum ≠ Aggregator.size := by
  constructor
  · simp [bin]
  · intro h
    exact Aggregator.noConfusion h

/-- C4 (amended): for a sample set with non-empty coordinate arrays, `bin`
raises the invalid-configuration error if and only if an aggregator other
than the default count is requested and the sample set carries no value
dimensions. -/
theorem C4_invalid_configuration_iff (cfg : Config) (e : Element)
    (hne : e.xs ≠ []) :
    bin cfg e = Except.error hexErrMsg
      ↔ (cfg.aggregator ≠ Aggregator.size ∧ e.vdims = []) := by
  have hlen : ¬ e.xs.length = 0 := by
    simpa [List.length_eq_zero] using hne
  obtain ⟨gs, agg, mc, o⟩ := cfg
  cases agg with
  | size => simp [bin, hlen]
  | fn f =>
    by_cases hvd : e.vdims = []
    · simp [bin, hlen, hvd]
    · simp [bin, hlen, hvd]

/-- C4 witness: a one-sample set without value dimensions and a sum aggregator
does raise the invalid-configuration error. -/
theorem C4_invalid_configuration_iff_witness :
    bin ⟨Gridsize.single 1, Aggregator.fn List.sum, none, Orientation.flat⟩
        ⟨[FloatV.num 0], [FloatV.num 0], []⟩ = Except.error hexErrMsg :=
  (C4_invalid_configuration_iff _ _ (by simp)).mpr
    ⟨fun h => Aggregator.noConfusion h, rfl⟩

/-- C6: the `bin` output equals the output without min_count filtering with,
when min_count is set and greater than 1, exactly the rows whose primary
(first) value is at least min_count retained and all rows below it dropped;
when min_count is absent or not greater than 1 no rows are dropped. -/
theorem C6_min_count_filter (cfg : Config) (e : Element) :
    bin cfg e = Except.map
      (fun rows => match cfg.min_count with
        | some m => if 1 < m then
              rows.filter (fun row => m ≤ row.2.headD 0)
            else rows
        | none => rows)
      (bin { cfg with min_count := none } e) := by
  obtain ⟨gs, agg, mc, o⟩ := cfg
  by_cases hlen : e.xs.length = 0
  · cases mc with
    | none => simp [bin, hlen, Except.map]
    | some m => simp [bin, hlen, Except.map]
  · cases agg with
    | size =>
      simp only [bin, if_neg hlen]
      rfl
    | fn f =>
      simp only [bin, if_neg hlen]
      by_cases hvd : e.vdims = []
      · rw [if_pos hvd, if_pos hvd]
        rfl
      · rw [if_neg hvd, if_neg hvd]
        rfl

/-- Modelled from the claim's words: (sx, sy) equals the gridsize pair, or
(g, g) when a single integer g was given. -/
def sxyClaim : Gridsize → ℕ × ℕ
  | .single g => (g, g)
  | .pair a b => (a, b)

/-- Modelled from the claim's words: the fixed 2x2 matrix selected by the
orientation (flat: [2/3, 0; -1/3, sqrt3/3], pointy: [sqrt3/3, -1/3; 0, 2/3])
applied to the normalized pair (u, v) = (x/xsize, -y/ysize). -/
noncomputable def hexFracClaim (o : Orientation) (u v : ℝ) : ℝ × ℝ :=
  match o with
  | Orientation.flat => (2/3 * u + 0 * v, -(1/3) * u + Real.sqrt 3/3 * v)
  | Orientation.pointy => (Real.sqrt 3/3 * u + -(1/3) * v, 0 * u + 2/3 * v)

theorem hexFrac_eq_claim (o : Orientation) (x y xs ys : ℝ) :
    hexFrac o x y xs ys = hexFracClaim o (x / xs) (-y / ys) := by
  cases o <;> simp [hexFrac, hexFracClaim, HEX_FLAT, HEX_POINTY]

/-- C5: for every sample set and grid configuration, `bin` computes the
per-axis pitches as xsize = (xrange/sx)*(2/3) and ysize = (yrange/sy)*(2/3)
with (sx, sy) the gridsize pair (broadcast from a single integer), and
converts each remaining sample to fractional axial coordinates by applying
the fixed orientation matrix to (x/xsize, -y/ysize), then rounding. -/
theorem C5_pitch_and_transform (cfg : Config) (e : Element) (x y : ℝ)
    (_hne : e.xs ≠ []) :
    binXsize cfg e
        = ((rangeMax e.xs - rangeMin e.xs)
            / ((sxyClaim cfg.gridsize).1 : ℝ)) * (2/3)
      ∧ binYsize cfg e
        = ((rangeMax e.ys - rangeMin e.ys)
            / ((sxyClaim cfg.gridsize).2 : ℝ)) * (2/3)
      ∧ hexFrac cfg.orientation x y (binXsize cfg e) (binYsize cfg e)
        = hexFracClaim cfg.orientation (x / binXsize cfg e)
            (-y / binYsize cfg e)
      ∧ binCells cfg e = (binPoints e).map (fun p =>
          round_hex
            (hexFracClaim cfg.orientation (p.1 / binXsize cfg e)
              (-p.2 / binYsize cfg e)).1
            (hexFracClaim cfg.orientation (p.1 / binXsize cfg e)
              (-p.2 / binYsize cfg e)).2) := by
  refine ⟨?_, ?_, ?_, ?_⟩
  · cases hg : cfg.gridsize <;> simp [binXsize, Gridsize.sx, sxyClaim, hg]
  · cases hg : cfg.gridsize <;> simp [binYsize, Gridsize.sy, sxyClaim, hg]
  · exact hexFrac_eq_claim _ _ _ _ _
  · simp only [binCells, coords_to_hex, hexFrac_eq_claim]

/-- C5 witness: the x pitch equation instantiated at a concrete one-sample
set. -/
theorem C5_pitch_and_transform_witness :
    binXsize ⟨Gridsize.single 1, Aggregator.size, none, Orientation.flat⟩
        ⟨[FloatV.num 0], [FloatV.num 0], []⟩
      = ((rangeMax [FloatV.num 0] - rangeMin [FloatV.num 0])
          / ((sxyClaim (Gridsize.single 1)).1 : ℝ)) * (2/3) :=
  (C5_pitch_and_transform _ _ 0 0 (by simp)).1

theorem map_congr_mem {α β : Type} (l : List α) (f g : α → β)
    (h : ∀ a ∈ l, f a = g a) : l.map f = l.map g := by
  induction l with
  | nil => rfl
  | cons a t ih =>
    simp only [List.map_cons, h a (List.mem_cons_self a t)]
    rw [ih (fun b hb => h b (List.mem_cons_of_mem a hb))]

theorem zip_replicate_len (l : List (ℤ × ℤ)) (a : ℝ) :
    List.zip l (List.replicate l.length a) = l.map (fun c => (c, a)) := by
  induction l with
  | nil => rfl
  | cons c t ih =>
    simp only [List.length_cons, List.replicate_succ, List.zip_cons_cons,
      List.map_cons]
    rw [ih]

theorem filter_fst_map_not_mem (k : ℤ × ℤ) (l : List (ℤ × ℤ)) (a : ℝ)
    (h : k ∉ l) :
    (l.map (fun c => (c, a))).filter (fun p => p.1 = k) = [] := by
  induction l with
  | nil => rfl
  | cons c t ih =>
    have h1 : ¬ (k = c ∨ k ∈ t) := by simpa [List.mem_cons] using h
    push_neg at h1
    have hck : ¬ (c = k) := fun he => h1.1 he.symm
    simp only [List.map_cons, List.filter_cons]
    simp [hck, ih h1.2]

theorem filter_fst_map_nodup (k : ℤ × ℤ) (l : List (ℤ × ℤ)) (a : ℝ)
    (hnd : l.Nodup) (hk : k ∈ l) :
    (l.map (fun c => (c, a))).filter (fun p => p.1 = k) = [(k, a)] := by
  induction l with
  | nil => exact absurd hk (List.not_mem_nil k)
  | cons c t ih =>
    rcases List.nodup_cons.mp hnd with ⟨hct, hndt⟩
    rcases List.mem_cons.mp hk with he | hmem
    · subst he
      simp only [List.map_cons, List.filter_cons]
      simp [filter_fst_map_not_mem k t a hct]
    · have hck : ¬ (c = k) := fun he => hct (by rw [he]; exact hmem)
      simp only [List.map_cons, List.filter_cons]
      simp [hck, ih hndt hmem]

theorem selectVals_replicate (cells : List (ℤ × ℤ)) (k : ℤ × ℤ)
    (hnd : cells.Nodup) (hk : k ∈ cells) :
    selectVals cells k (List.replicate cells.length (1:ℝ)) = [1] := by
  rw [selectVals, zip_replicate_len, filter_fst_map_nodup k cells 1 hnd hk]
  rfl

theorem dedupKeys_self_of_nodup (l : List (ℤ × ℤ)) (h : l.Nodup) :
    dedupKeys l = l := by
  induction l with
  | nil => rfl
  | cons c t ih =>
    rcases List.nodup_cons.mp h with ⟨hct, hndt⟩
    have hf : t.filter (fun a => a ≠ c) = t := by
      apply List.filter_eq_self.mpr
      intro a ha
      have hac : a ≠ c := fun he => hct (he ▸ ha)
      simpa using hac
    simp only [dedupKeys, ih hndt, hf]

theorem aggregateCols_count_ones (cells : List (ℤ × ℤ))
    (hnd : cells.Nodup) :
    aggregateCols List.sum cells [List.replicate cells.length (1:ℝ)]
      = cells.map (fun c => (c, [(1:ℝ)])) := by
  rw [aggregateCols, dedupKeys_self_of_nodup cells hnd]
  apply map_congr_mem
  intro k hk
  simp [selectVals_replicate cells k hnd hk]

/-- C7 (amended): for every family of distinct hex cells and positive pitches,
placing one sample exactly at each cell's center (the inverse of the
orientation transform at those pitches) and running the count aggregation of
`bin` with the hex assignment at those same pitches recovers exactly those
(q, r) cells, each with count 1. -/
theorem C7_centers_roundtrip (o : Orientation) (xs ys : ℝ)
    (hxs : 0 < xs) (hys : 0 < ys) (cells : List (ℤ × ℤ))
    (hnd : cells.Nodup) :
    aggregateCols List.sum
      (cells.map (fun c =>
        coords_to_hex (hexCenter o xs ys c.1 c.2).1
          (hexCenter o xs ys c.1 c.2).2 o xs ys))
      [List.replicate cells.length (1:ℝ)]
    = cells.map (fun c => (c, [(1:ℝ)])) := by
  have hmap : cells.map (fun c =>
      coords_to_hex (hexCenter o xs ys c.1 c.2).1
        (hexCenter o xs ys c.1 c.2).2 o xs ys) = cells := by
    have h0 : ∀ c ∈ cells,
        coords_to_hex (hexCenter o xs ys c.1 c.2).1
          (hexCenter o xs ys c.1 c.2).2 o xs ys = c := by
      intro c _
      have h := coords_to_hex_center_offset o xs ys hxs hys c.1 c.2 0 0
        (by rw [abs_zero]; linarith) (by rw [abs_zero]; linarith)
      rw [add_zero, add_zero] at h
      rw [h]
    calc cells.map (fun c =>
        coords_to_hex (hexCenter o xs ys c.1 c.2).1
          (hexCenter o xs ys c.1 c.2).2 o xs ys)
        = cells.map id := map_congr_mem _ _ _ h0
      _ = cells := List.map_id cells
  rw [hmap]
  exact aggregateCols_count_ones cells hnd

/-- C7 witness: two distinct cells with unit pitches and pointy orientation
are recovered, each with count 1. -/
theorem C7_centers_roundtrip_witness :
    aggregateCols List.sum
      ([((0:ℤ), (0:ℤ)), ((1:ℤ), (2:ℤ))].map (fun c =>
        coords_to_hex (hexCenter Orientation.pointy 1 1 c.1 c.2).1
          (hexCenter Orientation.pointy 1 1 c.1 c.2).2 Orientation.pointy 1 1))
      [List.replicate ([((0:ℤ), (0:ℤ)), ((1:ℤ), (2:ℤ))].length) (1:ℝ)]
    = [(((0:ℤ), (0:ℤ)), [(1:ℝ)]), (((1:ℤ), (2:ℤ)), [(1:ℝ)])] := by
  have h := C7_centers_roundtrip Orientation.pointy 1 1 (by norm_num)
    (by norm_num) [((0:ℤ), (0:ℤ)), ((1:ℤ), (2:ℤ))] (by decide)
  simpa using h

theorem cth_zero (xs ys : ℝ) :
    coords_to_hex 0 0 Orientation.flat xs ys = (0, 0) := by
  have h : hexFrac Orientation.flat 0 0 xs ys = (0, 0) := by
    simp [hexFrac, HEX_FLAT]
  simp only [coords_to_hex, h]
  simpa using round_hex_int 0 0

theorem cth_two_zero :
    coords_to_hex 3 (-(Real.sqrt 3)) Orientation.flat 2 (Real.sqrt 3 * (2/3))
      = (1, 0) := by
  have hs0 : Real.sqrt 3 ≠ 0 := (Real.sqrt_pos.mpr (by norm_num)).ne'
  have hfr : hexFrac Orientation.flat 3 (-(Real.sqrt 3)) 2
      (Real.sqrt 3 * (2/3)) = (1, Real.sqrt 3 / 2 - 1/2) := by
    have ey : -(-(Real.sqrt 3)) / (Real.sqrt 3 * (2/3)) = 3/2 := by
      rw [neg_neg, div_mul_eq_div_div, div_self hs0]
      norm_num
    simp only [hexFrac, HEX_FLAT]
    rw [ey, Prod.mk.injEq]
    constructor
    · norm_num
    · ring
  simp only [coords_to_hex, hfr]
  have hb : |Real.sqrt 3 / 2 - 1/2| < 1/2 := by
    rw [abs_lt]
    constructor
    · have : (0:ℝ) < Real.sqrt 3 := Real.sqrt_pos.mpr (by norm_num)
      linarith
    · have := sqrt_three_lt_two
      linarith
  have h := round_hex_near 1 0 0 (Real.sqrt 3 / 2 - 1/2) (by norm_num) hb
    (by rw [zero_add]; exact hb)
  have e1 : ((1:ℤ) : ℝ) + 0 = 1 := by norm_num
  have e2 : ((0:ℤ) : ℝ) + (Real.sqrt 3 / 2 - 1/2) = Real.sqrt 3 / 2 - 1/2 := by
    norm_num
  rw [e1, e2] at h
  exact h

/-- Input of the round-trip counterexample: one sample exactly at the center
of cell (0,0) and one exactly at the center of cell (2,0), computed by
inverting the flat transform with configured unit pitches. -/
noncomputable def elemRT : Element :=
  ⟨[FloatV.num 0, FloatV.num 3],
   [FloatV.num 0, FloatV.num (-(Real.sqrt 3))], []⟩

/-- Configuration of the round-trip counterexample: gridsize 1, default count
aggregator, flat orientation. -/
def cfgRT : Config :=
  ⟨Gridsize.single 1, Aggregator.size, none, Orientation.flat⟩

theorem binXsize_cfgRT : binXsize cfgRT elemRT = 2 := by
  have hmax : rangeMax elemRT.xs = max 0 3 := rfl
  have hmin : rangeMin elemRT.xs = min 0 3 := rfl
  simp only [binXsize]
  rw [hmax, hmin, show cfgRT.gridsize.sx = 1 from rfl,
    max_eq_right (by norm_num : (0:ℝ) ≤ 3),
    min_eq_left (by norm_num : (0:ℝ) ≤ 3)]
  norm_num

theorem binYsize_cfgRT : binYsize cfgRT elemRT = Real.sqrt 3 * (2/3) := by
  have hmax : rangeMax elemRT.ys = max 0 (-(Real.sqrt 3)) := rfl
  have hmin : rangeMin elemRT.ys = min 0 (-(Real.sqrt 3)) := rfl
  have hns : -(Real.sqrt 3) ≤ 0 := neg_nonpos.mpr (Real.sqrt_nonneg 3)
  simp only [binYsize]
  rw [hmax, hmin, show cfgRT.gridsize.sy = 1 from rfl, max_eq_left hns,
    min_eq_right hns, Nat.cast_one]
  ring

theorem binCells_cfgRT :
    binCells cfgRT elemRT = [((0:ℤ), (0:ℤ)), ((1:ℤ), (0:ℤ))] := by
  have hpts : binPoints elemRT = [(0, 0), (3, -(Real.sqrt 3))] := rfl
  simp only [binCells, hpts, binXsize_cfgRT, binYsize_cfgRT,
    show cfgRT.orientation = Orientation.flat from rfl, List.map_cons,
    List.map_nil]
  rw [cth_zero, cth_two_zero]

/-- C7 as stated about `bin` is false: samples placed exactly at the centers
of cells (0,0) and (2,0) for configured unit pitches are binned by `bin` —
whose pitches are re-derived from the data extent, not configured — into
cells (0,0) and (1,0) with count 1 each, so the placed cell (2,0) is not
recovered. -/
theorem C7_counterexample :
    hexCenter Orientation.flat 1 1 0 0 = (0, 0)
      ∧ hexCenter Orientation.flat 1 1 2 0 = (3, -(Real.sqrt 3))
      ∧ bin cfgRT elemRT
          = Except.ok [(((0:ℤ), (0:ℤ)), [(1:ℝ)]), (((1:ℤ), (0:ℤ)), [(1:ℝ)])]
      ∧ ((2:ℤ), (0:ℤ)) ∉ ([(((0:ℤ), (0:ℤ)), [(1:ℝ)]),
          (((1:ℤ), (0:ℤ)), [(1:ℝ)])].map Prod.fst) := by
  refine ⟨by norm_num [hexCenter], by norm_num [hexCenter], ?_, by simp⟩
  have hlen : ¬ elemRT.xs.length = 0 := by
    rw [show elemRT.xs.length = 2 from rfl]
    norm_num
  simp only [bin, if_neg hlen, show cfgRT.aggregator = Aggregator.size from rfl,
    binCells_cfgRT, show cfgRT.min_count = (none : Option ℝ) from rfl,
    minCountFilter]
  rw [show List.replicate
      ([((0:ℤ), (0:ℤ)), ((1:ℤ), (0:ℤ))].length) (1:ℝ) = [1, 1] from rfl]
  simp only [aggregateCols,
    show dedupKeys [((0:ℤ), (0:ℤ)), ((1:ℤ), (0:ℤ))]
      = [((0:ℤ), (0:ℤ)), ((1:ℤ), (0:ℤ))] from by decide,
    List.map_cons, List.map_nil]
  rw [show selectVals [((0:ℤ), (0:ℤ)), ((1:ℤ), (0:ℤ))] ((0:ℤ), (0:ℤ))
      [(1:ℝ), 1] = [1] from rfl,
    show selectVals [((0:ℤ), (0:ℤ)), ((1:ℤ), (0:ℤ))] ((1:ℤ), (0:ℤ))
      [(1:ℝ), 1] = [1] from rfl]
  norm_num

/-- Input of the NaN-pairing bug: a NaN-coordinate sample carrying value 5,
then finite samples at the centers of cells (0,0) and (1,0) of the derived
grid, carrying values 7 and 11. -/
noncomputable def elemNaN : Element :=
  ⟨[FloatV.nan, FloatV.num 0, FloatV.num 3],
   [FloatV.num 0, FloatV.num 0, FloatV.num (-(Real.sqrt 3))],
   [[5, 7, 11]]⟩

/-- Configuration of the NaN-pairing bug input: gridsize 1, sum aggregator,
flat orientation. -/
noncomputable def cfgNaN : Config :=
  ⟨Gridsize.single 1, Aggregator.fn List.sum, none, Orientation.flat⟩

theorem binXsize_cfgNaN : binXsize cfgNaN elemNaN = 2 := by
  have hmax : rangeMax elemNaN.xs = max 0 3 := rfl
  have hmin : rangeMin elemNaN.xs = min 0 3 := rfl
  simp only [binXsize]
  rw [hmax, hmin, show cfgNaN.gridsize.sx = 1 from rfl,
    max_eq_right (by norm_num : (0:ℝ) ≤ 3),
    min_eq_left (by norm_num : (0:ℝ) ≤ 3)]
  norm_num

theorem binYsize_cfgNaN : binYsize cfgNaN elemNaN = Real.sqrt 3 * (2/3) := by
  have hmax : rangeMax elemNaN.ys = max (max 0 0) (-(Real.sqrt 3)) := rfl
  have hmin : rangeMin elemNaN.ys = min (min 0 0) (-(Real.sqrt 3)) := rfl
  have hns : -(Real.sqrt 3) ≤ 0 := neg_nonpos.mpr (Real.sqrt_nonneg 3)
  simp only [binYsize]
  rw [hmax, hmin, max_self, min_self, show cfgNaN.gridsize.sy = 1 from rfl,
    max_eq_left hns, min_eq_right hns, Nat.cast_one]
  ring

theorem binCells_cfgNaN :
    binCells cfgNaN elemNaN = [((0:ℤ), (0:ℤ)), ((1:ℤ), (0:ℤ))] := by
  have hpts : binPoints elemNaN = [(0, 0), (3, -(Real.sqrt 3))] := rfl
  simp only [binCells, hpts, binXsize_cfgNaN, binYsize_cfgNaN,
    show cfgNaN.orientation = Orientation.flat from rfl, List.map_cons,
    List.map_nil]
  rw [cth_zero, cth_two_zero]

/-- C2 fails on the code: `_process` filters the coordinate columns by
finiteness but reads the value-dimension columns unfiltered (lines 95-97), so
the claimed lockstep pairing with the value columns is broken.  Here 2
filtered coordinates are paired with 3 value entries: the discarded NaN
sample's value 5 is attributed to cell (0,0) — whose own sample carried 7 —
value 7 is attributed to cell (1,0) — whose sample carried 11 — and value 11
is dropped. -/
theorem C2_unfiltered_values_bug :
    (binCells cfgNaN elemNaN).length = 2
      ∧ (elemNaN.vdims.headD []).length = 3
      ∧ bin cfgNaN elemNaN
        = Except.ok [(((0:ℤ), (0:ℤ)), [(5:ℝ)]), (((1:ℤ), (0:ℤ)), [(7:ℝ)])] := by
  refine ⟨by rw [binCells_cfgNaN]; rfl, rfl, ?_⟩
  have hlen : ¬ elemNaN.xs.length = 0 := by
    rw [show elemNaN.xs.length = 3 from rfl]
    norm_num
  have hvd : ¬ elemNaN.vdims = [] := by
    rw [show elemNaN.vdims = [[5, 7, 11]] from rfl]
    simp
  simp only [bin, if_neg hlen,
    show cfgNaN.aggregator = Aggregator.fn List.sum from rfl, if_neg hvd,
    binCells_cfgNaN, show cfgNaN.min_count = (none : Option ℝ) from rfl,
    minCountFilter, show elemNaN.vdims = [[5, 7, 11]] from rfl]
  simp only [aggregateCols,
    show dedupKeys [((0:ℤ), (0:ℤ)), ((1:ℤ), (0:ℤ))]
      = [((0:ℤ), (0:ℤ)), ((1:ℤ), (0:ℤ))] from by decide,
    List.map_cons, List.map_nil]
  rw [show selectVals [((0:ℤ), (0:ℤ)), ((1:ℤ), (0:ℤ))] ((0:ℤ), (0:ℤ))
      [(5:ℝ), 7, 11] = [5] from rfl,
    show selectVals [((0:ℤ), (0:ℤ)), ((1:ℤ), (0:ℤ))] ((1:ℤ), (0:ℤ))
      [(5:ℝ), 7, 11] = [7] from rfl]
  norm_num

end HexTiles

namespace SheetPlots

/-- Model of the shared frame-update logic of `update_frame` in sheetplots.py
(PointPlot lines 45-48, ContourPlot lines 82-84, SheetPlot lines 138-141,
CoordinateGridPlot lines 211-214): the requested index is clamped by
`n = n if n < len(self) else len(self) - 1` and the frame list is indexed at
the clamped index. -/
def selectFrame {α : Type} (frames : List α) (n : ℕ) : Option α :=
  frames.get? (if n < frames.length then n else frames.length - 1)

/-- C10: for every plot over a non-empty stack of frames, an update at an
index at or beyond the number of frames is clamped to the last frame (index
length - 1) instead of indexing out of range, and an update below the frame
count uses exactly frame n. -/
theorem C10_update_frame_clamps {α : Type} (frames : List α) (n : ℕ)
    (h : frames ≠ []) :
    (frames.length ≤ n → selectFrame frames n = some (frames.getLast h))
      ∧ (∀ hn : n < frames.length,
          selectFrame frames n = some (frames.get ⟨n, hn⟩)) := by
  constructor
  · intro hle
    have hnlt : ¬ n < frames.length := not_lt.mpr hle
    have hpos : 0 < frames.length := List.length_pos.mpr h
    rw [selectFrame, if_neg hnlt,
      List.get?_eq_get (show frames.length - 1 < frames.length by omega)]
    congr 1
    exact (List.getLast_eq_get frames h).symm
  · intro hn
    rw [selectFrame, if_pos hn, List.get?_eq_get hn]

/-- C10 witness: over two frames, the update at index 5 is clamped to the last
frame and the update at index 1 uses frame 1. -/
theorem C10_update_frame_clamps_witness :
    selectFrame [(0:ℕ), 1] 5 = some 1 ∧ selectFrame [(0:ℕ), 1] 1 = some 1 := by
  constructor
  · rw [(C10_update_frame_clamps [(0:ℕ), 1] 5 (by simp)).1 (by norm_num)]
    rfl
  · rw [(C10_update_frame_clamps [(0:ℕ), 1] 1 (by simp)).2 (by norm_num)]
    rfl

end SheetPlots
